import Mathlib

/-!
Shallow embedding of the Merkle tree library in `src/src/lib.rs` (crate
`merkle-tree`).

Modelling conventions:
* `Data` and `Hash` (Rust `Vec<u8>`) are `List Nat`, each element a byte.
* `usize` arithmetic that can overflow is modelled as `Nat` with an explicit
  wrap at `2 ^ 64` (Rust release-mode wrapping semantics; in debug mode the
  same inputs panic, so either way the operation does not return normally
  on the wrapping paths).
* The `Sha256` digest of the external `sha2` crate is implemented from
  FIPS 180-4; it is exercised against the reference vector recorded in
  the repository in the theorems below.
* Fallible paths (the `vec![..]` allocation after a `usize` underflow, which
  panics/aborts in Rust) are modelled by returning `Option`, with `none` for
  the panicking path.
* Loops whose counters are not structurally decreasing are written with an
  explicit fuel argument so that every definition reduces in the kernel; the
  fuel supplied at each call site is proved (or easily seen) to be enough,
  matching the unbounded loops of the source on all reachable inputs.
-/

set_option maxRecDepth 100000

namespace SHA256

/-- Modulus for 32-bit words, two to the 32. -/
def M32 : Nat := 4294967296

/-- Rotation of a 32-bit word to the right by `n`, with an explicit mask. -/
def rotr (n x : Nat) : Nat := ((x >>> n) ||| (x <<< (32 - n))) % M32

def Ch (x y z : Nat) : Nat := (x &&& y) ^^^ ((x ^^^ 4294967295) &&& z)

def Maj (x y z : Nat) : Nat := (x &&& y) ^^^ (x &&& z) ^^^ (y &&& z)

def bigS0 (x : Nat) : Nat := rotr 2 x ^^^ rotr 13 x ^^^ rotr 22 x

def bigS1 (x : Nat) : Nat := rotr 6 x ^^^ rotr 11 x ^^^ rotr 25 x

def smallS0 (x : Nat) : Nat := rotr 7 x ^^^ rotr 18 x ^^^ (x >>> 3)

def smallS1 (x : Nat) : Nat := rotr 17 x ^^^ rotr 19 x ^^^ (x >>> 10)

/-- The 64 round constants of FIPS 180-4, written in decimal. -/
def K : List Nat :=
  [1116352408, 1899447441, 3049323471, 3921009573, 961987163,
   1508970993, 2453635748, 2870763221, 3624381080, 310598401,
   607225278, 1426881987, 1925078388, 2162078206, 2614888103,
   3248222580, 3835390401, 4022224774, 264347078, 604807628,
   770255983, 1249150122, 1555081692, 1996064986, 2554220882,
   2821834349, 2952996808, 3210313671, 3336571891, 3584528711,
   113926993, 338241895, 666307205, 773529912, 1294757372,
   1396182291, 1695183700, 1986661051, 2177026350, 2456956037,
   2730485921, 2820302411, 3259730800, 3345764771, 3516065817,
   3600352804, 4094571909, 275423344, 430227734, 506948616,
   659060556, 883997877, 958139571, 1322822218, 1537002063,
   1747873779, 1955562222, 2024104815, 2227730452, 2361852424,
   2428436474, 2756734187, 3204031479, 3329325298]

/-- The initial hash state of FIPS 180-4, written in decimal. -/
def IV : List Nat :=
  [1779033703, 3144134277, 1013904242, 2773480762, 1359893119,
   2600822924, 528734635, 1541459225]

/-- FIPS 180-4 padding: append 0x80, zeros, and the 64-bit big-endian bit length. -/
def pad (msg : List Nat) : List Nat :=
  let len := msg.length
  let z := (119 - len % 64) % 64
  let bitLen := 8 * len
  msg ++ [128] ++ List.replicate z 0 ++
    [(bitLen >>> 56) % 256, (bitLen >>> 48) % 256, (bitLen >>> 40) % 256, (bitLen >>> 32) % 256,
     (bitLen >>> 24) % 256, (bitLen >>> 16) % 256, (bitLen >>> 8) % 256, bitLen % 256]

/-- Big-endian bytes to 32-bit words. -/
def toWords : List Nat → List Nat
  | b0 :: b1 :: b2 :: b3 :: rest => (((b0 * 256 + b1) * 256 + b2) * 256 + b3) :: toWords rest
  | _ => []

/-- Split a word list into 16-word blocks (fuel-driven; fuel is ample at the call site). -/
def chunks16 : Nat → List Nat → List (List Nat)
  | 0, _ => []
  | _, [] => []
  | fuel + 1, ws => ws.take 16 :: chunks16 fuel (ws.drop 16)

/-- Extend 16 message words to the 64-entry message schedule. -/
def schedule (ws : List Nat) : List Nat :=
  (List.range 48).foldl
    (fun w _ =>
      let n := w.length
      w ++ [(smallS1 (w.getD (n - 2) 0) + w.getD (n - 7) 0 +
             smallS0 (w.getD (n - 15) 0) + w.getD (n - 16) 0) % M32])
    ws

/-- One compression round on the 8-word working state. -/
def round (st : List Nat) (kw : Nat × Nat) : List Nat :=
  match st with
  | [a, b, c, d, e, f, g, h] =>
    let t1 := (h + bigS1 e + Ch e f g + kw.1 + kw.2) % M32
    let t2 := (bigS0 a + Maj a b c) % M32
    [(t1 + t2) % M32, a, b, c, (d + t1) % M32, e, f, g]
  | st => st

/-- Compress one 16-word block into the hash state. -/
def compress (st : List Nat) (block : List Nat) : List Nat :=
  let w := schedule block
  let fin := (K.zip w).foldl round st
  (st.zip fin).map (fun p => (p.1 + p.2) % M32)

/-- Full SHA-256 of a byte list, as a 32-entry byte list. -/
def sha256 (msg : List Nat) : List Nat :=
  let blocks := chunks16 (msg.length + 80) (toWords (pad msg))
  let fin := blocks.foldl compress IV
  fin.foldr (fun w acc =>
    (w >>> 24) % 256 :: (w >>> 16) % 256 :: (w >>> 8) % 256 :: w % 256 :: acc) []

end SHA256

namespace MerkleTree

/-- A data block (Rust `type Data = Vec<u8>`). -/
abbrev Data := List Nat

/-- A hash value (Rust `type Hash = Vec<u8>`). -/
abbrev Hash := List Nat

/-- Rust `enum HashDirection { Left, Right }`. -/
inductive HashDirection where
  | Left
  | Right
deriving DecidableEq

/-- Rust `utils::hash_data`: `sha2::Sha256::digest(data).to_vec()`. -/
def hash_data (data : Data) : Hash := SHA256.sha256 data

/-- Rust `utils::hash_concat`: digest of the bytes of the two hashes chained. -/
def hash_concat (h1 h2 : Hash) : Hash := hash_data (h1 ++ h2)

/-- Rust `MerkleTree::hash_internal_node`. -/
def hash_internal_node (left : Hash) (right : Option Hash) : Hash :=
  match right with
  | some right => hash_concat left right
  | none => hash_data left

/-- Rust `MerkleTree::construct_upper_level`: pair adjacent nodes left to
right; a trailing unpaired node is pushed as `nodes[count].clone()`. -/
def construct_upper_level : List Hash → List Hash
  | a :: b :: rest => hash_internal_node a (some b) :: construct_upper_level rest
  | [a] => [a]
  | [] => []

/-- Modulus for `usize`, two to the 64 (the crate targets a 64-bit platform). -/
def U64 : Nat := 18446744073709551616

/-- Rust `utils::next_power_of_2` with 64-bit wrapping `usize` arithmetic.
`val -= 1` and `val += 1` are wrapping (release mode); the shift cascade
stops at `>> 16`, exactly as in the source. -/
def next_power_of_2 (input : Nat) : Nat :=
  let val := (input + U64 - 1) % U64
  let val := val ||| (val >>> 1)
  let val := val ||| (val >>> 2)
  let val := val ||| (val >>> 4)
  let val := val ||| (val >>> 8)
  let val := val ||| (val >>> 16)
  (val + 1) % U64

/-- Rust slice assignment `nodes[start..start+vals.len()].clone_from_slice(vals)`
(on the in-bounds calls the source makes). -/
def writeSlice (nodes : List Hash) (start : Nat) (vals : List Hash) : List Hash :=
  nodes.take start ++ vals ++ nodes.drop (start + vals.length)

/-- The `while parent_nodes.len() > 1` loop of `build_internal_nodes`,
with fuel (the parent list at least halves each iteration, so the
`parent_nodes.len() + 1` fuel supplied by the caller is always enough). -/
def buildLoop : Nat → List Hash → List Hash → Nat → List Hash × List Hash
  | 0, nodes, parent_nodes, _ => (nodes, parent_nodes)
  | fuel + 1, nodes, parent_nodes, upper_level_start =>
    if parent_nodes.length > 1 then
      let parent2 := construct_upper_level parent_nodes
      let start2 := upper_level_start - parent2.length
      let nodes2 := writeSlice nodes start2 parent2
      buildLoop fuel nodes2 parent2 start2
    else (nodes, parent_nodes)

/-- Rust `MerkleTree::build_internal_nodes`. The final
`nodes[0] = parent_nodes.remove(0)` sets index 0 to the head of the
final parent level returned by the loop. -/
def build_internal_nodes (nodes : List Hash) (count_internal_nodes : Nat) : List Hash :=
  let parent_nodes := construct_upper_level (nodes.drop count_internal_nodes)
  if count_internal_nodes < parent_nodes.length then nodes
  else
    let upper_level_start := count_internal_nodes - parent_nodes.length
    let nodes1 := writeSlice nodes upper_level_start parent_nodes
    let res := buildLoop (parent_nodes.length + 1) nodes1 parent_nodes upper_level_start
    res.1.set 0 (res.2.headD [])

/-- Rust `MerkleTree::build_tree_from_leaves`. When
`next_power_of_2 count_leaves` wraps to 0 (which happens exactly for
`count_leaves = 0` on reachable inputs), `count_internal_nodes` underflows
and the `vec![..]` allocation panics/aborts: modelled as `none`. -/
def build_tree_from_leaves (leaves : List Hash) : Option (List Hash) :=
  let count_leaves := leaves.length
  let np := next_power_of_2 count_leaves
  if np = 0 then none
  else
    let count_internal_nodes := np - 1
    let nodes := List.replicate (count_internal_nodes + count_leaves) ([] : Hash)
    let nodes := writeSlice nodes count_internal_nodes leaves
    some (build_internal_nodes nodes count_internal_nodes)

/-- Rust `MerkleTree::construct` (the tree is its private `nodes` vector). -/
def construct (input : List Data) : Option (List Hash) :=
  build_tree_from_leaves (input.map hash_data)

/-- Rust `MerkleTree::root`: `self.nodes[0].clone()`. -/
def root (nodes : List Hash) : Hash := nodes.getD 0 []

/-- Rust `Iterator::position`: index of the first element satisfying `p`. -/
def position (p : Hash → Bool) : List Hash → Option Nat
  | [] => none
  | a :: l => if p a then some 0 else (position p l).map (· + 1)

/-- The `while current_index > 0` walk of `MerkleTree::prove`, with fuel
(`current_index` strictly decreases, so `idx + 1` fuel is always enough). -/
def proveLoop (nodes : List Hash) : Nat → Nat → List (HashDirection × Hash) →
    List (HashDirection × Hash)
  | 0, _, acc => acc
  | fuel + 1, current_index, acc =>
    if current_index = 0 then acc
    else
      let sd : Nat × HashDirection :=
        if current_index % 2 = 0 then (current_index - 1, HashDirection.Right)
        else (current_index + 1, HashDirection.Left)
      let acc2 := acc ++ [(sd.2, nodes.getD sd.1 [])]
      if current_index = 1 then acc2
      else proveLoop nodes fuel ((current_index - 1) / 2) acc2

/-- Rust `MerkleTree::prove`. -/
def prove (nodes : List Hash) (data : Data) : Option (List (HashDirection × Hash)) :=
  match position (fun h => decide (h = hash_data data)) nodes with
  | none => none
  | some idx =>
    let proof_hashes := proveLoop nodes (idx + 1) idx []
    if proof_hashes.isEmpty then none else some proof_hashes

/-- The fold body of Rust `MerkleTree::verify_proof`. -/
def verify_step (current_hash : Hash) (step : HashDirection × Hash) : Hash :=
  match step.1 with
  | HashDirection.Left => hash_concat current_hash step.2
  | HashDirection.Right => hash_concat step.2 current_hash

/-- Rust `MerkleTree::verify_proof`. -/
def verify_proof (data : Data) (proof : List (HashDirection × Hash)) (root_hash : Hash) : Bool :=
  decide (proof.foldl verify_step (hash_data data) = root_hash)

/-- Reading of the fold body that claim C5 attributes to `verify_proof`:
the tag is taken to name the side on which the SIBLING belongs in the
concatenation, so a Left tag concatenates the sibling on the left. This
definition follows the words of the claim and is compared against the
source-derived `verify_step`. -/
def claimed_verify_step (current_hash : Hash) (step : HashDirection × Hash) : Hash :=
  match step.1 with
  | HashDirection.Left => hash_concat step.2 current_hash
  | HashDirection.Right => hash_concat current_hash step.2

/-- Verification folded with `claimed_verify_step`, i.e. `verify_proof`
as claim C5 describes it. -/
def claimed_verify_proof (data : Data) (proof : List (HashDirection × Hash))
    (root_hash : Hash) : Bool :=
  decide (proof.foldl claimed_verify_step (hash_data data) = root_hash)

/-- Lowercase hexadecimal encoding of a byte list (Rust `hex::encode`);
`Nat.digitChar` maps 0..15 to the lowercase hexadecimal digits. -/
def bytesToHex (bs : List Nat) : String :=
  String.mk (bs.foldr
    (fun b acc => Nat.digitChar (b / 16 % 16) :: Nat.digitChar (b % 16) :: acc) [])

/-- One step of the bit-smearing cascade inside `next_power_of_2`
(proof-side abbreviation; `next_power_of_2` unfolds to five of these). -/
def smearStep (s x : Nat) : Nat := x ||| (x >>> s)

/-- The full bit-smearing cascade of `next_power_of_2` (shifts 1, 2, 4, 8, 16). -/
def smear (x : Nat) : Nat :=
  smearStep 16 (smearStep 8 (smearStep 4 (smearStep 2 (smearStep 1 x))))

/-- Proof-side description of the node array: all levels strictly above a
level of length two to the `k`, topmost first, obtained by iterating
`construct_upper_level` `k` times. For a leaf level of length two to the
`k` the node array built by the source equals `heapAboveP k leaves ++ leaves`. -/
def heapAboveP : Nat → List Hash → List Hash
  | 0, _ => []
  | k + 1, l => heapAboveP k (construct_upper_level l) ++ construct_upper_level l

/-- The statement of the heap-layout invariant of claim C2: each node whose
two child slots are inside the array is the digest of the concatenation of
its children, left to right. -/
def heap_invariant (nodes : List Hash) : Prop :=
  ∀ i : Nat, 2 * i + 2 < nodes.length →
    nodes.getD i [] = hash_concat (nodes.getD (2 * i + 1) []) (nodes.getD (2 * i + 2) [])

end MerkleTree

namespace MerkleTree

/-! Lemmas about `construct_upper_level`. -/

theorem cul_length : ∀ l : List Hash, (construct_upper_level l).length = (l.length + 1) / 2
  | [] => rfl
  | [_] => by simp [construct_upper_level]
  | _ :: _ :: rest => by
    have ih := cul_length rest
    simp only [construct_upper_level, List.length_cons, ih]
    omega

theorem cul_getD : ∀ (l : List Hash) (t : Nat), 2 * t + 1 < l.length →
    (construct_upper_level l).getD t [] =
      hash_concat (l.getD (2 * t) []) (l.getD (2 * t + 1) [])
  | [], _, h => by simp at h
  | [_], _, h => by simp at h
  | _ :: _ :: _, 0, _ => rfl
  | a :: b :: rest, t + 1, h => by
    have ih := cul_getD rest t (by simp only [List.length_cons] at h; omega)
    have e1 : 2 * (t + 1) = 2 * t + 1 + 1 := by omega
    have e2 : 2 * (t + 1) + 1 = 2 * t + 1 + 1 + 1 := by omega
    simp only [construct_upper_level, List.getD_cons_succ, e1, e2, ih]

theorem cul_append_singleton : ∀ (l : List Hash) (a : Hash), l.length % 2 = 0 →
    construct_upper_level (l ++ [a]) = construct_upper_level l ++ [a]
  | [], _, _ => rfl
  | [_], _, h => by simp at h
  | x :: y :: rest, a, h => by
    have ih := cul_append_singleton rest a (by simp only [List.length_cons] at h; omega)
    simp only [List.cons_append, construct_upper_level, List.append_eq, ih]

theorem cul_last_odd : ∀ l : List Hash, l.length % 2 = 1 →
    (construct_upper_level l).getD (l.length / 2) [] = l.getD (l.length - 1) []
  | [], h => by simp at h
  | [_], _ => by simp [construct_upper_level]
  | a :: b :: rest, h => by
    have hr : rest.length % 2 = 1 := by simp only [List.length_cons] at h; omega
    have hr1 : 1 ≤ rest.length := by omega
    have ih := cul_last_odd rest hr
    show (construct_upper_level (a :: b :: rest)).getD ((a :: b :: rest).length / 2) []
      = (a :: b :: rest).getD ((a :: b :: rest).length - 1) []
    rw [show (a :: b :: rest).length = rest.length + 2 by simp,
      show (rest.length + 2) / 2 = rest.length / 2 + 1 by omega]
    simp only [construct_upper_level, List.getD_cons_succ]
    rw [ih, show rest.length + 2 - 1 = (rest.length - 1) + 1 + 1 by omega]
    simp only [List.getD_cons_succ]

/-! Lemmas about `next_power_of_2` via the `smear` cascade. -/

theorem np2_eq (input : Nat) :
    next_power_of_2 input = (smear ((input + U64 - 1) % U64) + 1) % U64 := rfl

theorem lor_lt_two_pow {x y n : Nat} (hx : x < 2 ^ n) (hy : y < 2 ^ n) :
    x ||| y < 2 ^ n :=
  Nat.bitwise_lt hx hy

theorem shiftRight_lt_two_pow {x n : Nat} (s : Nat) (hx : x < 2 ^ n) : x >>> s < 2 ^ n := by
  rw [Nat.shiftRight_eq_div_pow]
  exact Nat.lt_of_le_of_lt (Nat.div_le_self _ _) hx

theorem smearStep_lt_two_pow {s x n : Nat} (hx : x < 2 ^ n) : smearStep s x < 2 ^ n :=
  lor_lt_two_pow hx (shiftRight_lt_two_pow s hx)

theorem smear_lt_two_pow {x n : Nat} (hx : x < 2 ^ n) : smear x < 2 ^ n :=
  smearStep_lt_two_pow (smearStep_lt_two_pow (smearStep_lt_two_pow
    (smearStep_lt_two_pow (smearStep_lt_two_pow hx))))

theorem smearStep_ones (s k : Nat) : smearStep s (2 ^ k - 1) = 2 ^ k - 1 := by
  apply Nat.eq_of_testBit_eq
  intro i
  unfold smearStep
  rw [Nat.testBit_lor, Nat.testBit_shiftRight, Nat.testBit_two_pow_sub_one,
    Nat.testBit_two_pow_sub_one]
  rcases Nat.lt_or_ge i k with h | h
  · simp [h]
  · have h2 : ¬ s + i < k := by omega
    simp [h2, show ¬ i < k by omega]

theorem smear_ones (k : Nat) : smear (2 ^ k - 1) = 2 ^ k - 1 := by
  unfold smear
  rw [smearStep_ones, smearStep_ones, smearStep_ones, smearStep_ones, smearStep_ones]

theorem U64_eq : U64 = 2 ^ 64 := by norm_num [U64]

theorem np2_two_pow {k : Nat} (hk : k ≤ 63) : next_power_of_2 (2 ^ k) = 2 ^ k := by
  rw [np2_eq]
  have h1 : 1 ≤ (2 : Nat) ^ k := Nat.one_le_two_pow
  have hlt : (2 : Nat) ^ k < U64 := by
    rw [U64_eq]
    exact Nat.pow_lt_pow_right (by norm_num) (by omega)
  have hmod : (2 ^ k + U64 - 1) % U64 = 2 ^ k - 1 := by
    rw [show 2 ^ k + U64 - 1 = (2 ^ k - 1) + U64 by omega, Nat.add_mod_right,
      Nat.mod_eq_of_lt (by omega)]
  rw [hmod, smear_ones, show (2 : Nat) ^ k - 1 + 1 = 2 ^ k by omega, Nat.mod_eq_of_lt hlt]

theorem np2_zero_of_ge64 {k : Nat} (hk : 64 ≤ k) : next_power_of_2 (2 ^ k) = 0 := by
  rw [np2_eq]
  have hU : 0 < U64 := by norm_num [U64]
  have h1 : 1 ≤ (2 : Nat) ^ k := Nat.one_le_two_pow
  have h0 : 2 ^ k % U64 = 0 := by
    rw [U64_eq]
    exact Nat.mod_eq_zero_of_dvd (Nat.pow_dvd_pow 2 hk)
  have hm1 : (U64 - 1) % U64 = U64 - 1 := Nat.mod_eq_of_lt (by omega)
  have hmod : (2 ^ k + U64 - 1) % U64 = U64 - 1 := by
    rw [show 2 ^ k + U64 - 1 = 2 ^ k + (U64 - 1) by omega, Nat.add_mod, h0, hm1,
      Nat.zero_add, hm1]
  rw [hmod, show U64 - 1 = 2 ^ 64 - 1 by norm_num [U64], smear_ones,
    show (2 : Nat) ^ 64 - 1 + 1 = 2 ^ 64 by norm_num, show (2 : Nat) ^ 64 = U64 by
      norm_num [U64], Nat.mod_self]

theorem np2_ne_zero {n : Nat} (h1 : 1 ≤ n) (h2 : n ≤ 2 ^ 63) : next_power_of_2 n ≠ 0 := by
  rw [np2_eq]
  have hU : U64 = 2 ^ 64 := U64_eq
  have e : U64 = 2 * 2 ^ 63 := by norm_num [U64]
  have hlt : n - 1 < U64 := by omega
  have hmod : (n + U64 - 1) % U64 = n - 1 := by
    rw [show n + U64 - 1 = (n - 1) + U64 by omega, Nat.add_mod_right, Nat.mod_eq_of_lt hlt]
  rw [hmod]
  have hs : smear (n - 1) < 2 ^ 63 := smear_lt_two_pow (by omega)
  rw [Nat.mod_eq_of_lt (by omega)]
  omega

theorem smearStep_one_pred {k : Nat} (hk2 : 2 ≤ k) : smearStep 1 (2 ^ k - 2) = 2 ^ k - 1 := by
  have hp2 : (2 : Nat) ^ k = 2 * 2 ^ (k - 1) := by
    conv_lhs => rw [show k = (k - 1) + 1 by omega]
    rw [pow_succ]; ring
  have hpw : 2 ≤ (2 : Nat) ^ (k - 1) := by
    calc (2 : Nat) = 2 ^ 1 := by norm_num
    _ ≤ 2 ^ (k - 1) := Nat.pow_le_pow_right (by norm_num) (by omega)
  have hs : (2 ^ k - 2) >>> 1 = 2 ^ (k - 1) - 1 := by
    rw [Nat.shiftRight_eq_div_pow, pow_one]
    omega
  unfold smearStep
  rw [hs]
  apply Nat.eq_of_testBit_eq
  intro i
  rw [Nat.testBit_lor]
  cases i with
  | zero =>
    rw [Nat.testBit_zero, Nat.testBit_two_pow_sub_one, Nat.testBit_two_pow_sub_one]
    have e1 : (2 ^ k - 2) % 2 = 0 := by omega
    simp [e1, show 0 < k - 1 by omega, show 0 < k by omega]
  | succ i =>
    rw [Nat.testBit_add_one, Nat.testBit_two_pow_sub_one, Nat.testBit_two_pow_sub_one,
      show (2 ^ k - 2) / 2 = 2 ^ (k - 1) - 1 by omega, Nat.testBit_two_pow_sub_one]
    by_cases h : i < k - 1
    · simp [h, show i + 1 < k by omega]
    · simp [h, show ¬ i + 1 < k - 1 by omega, show ¬ i + 1 < k by omega]

theorem smear_pred {k : Nat} (hk2 : 2 ≤ k) : smear (2 ^ k - 2) = 2 ^ k - 1 := by
  unfold smear
  rw [smearStep_one_pred hk2, smearStep_ones, smearStep_ones, smearStep_ones, smearStep_ones]

theorem np2_pred {k : Nat} (hk2 : 2 ≤ k) (hk : k ≤ 63) :
    next_power_of_2 (2 ^ k - 1) = 2 ^ k := by
  rw [np2_eq]
  have h1 : 2 ≤ (2 : Nat) ^ k := by
    calc (2 : Nat) = 2 ^ 1 := by norm_num
    _ ≤ 2 ^ k := Nat.pow_le_pow_right (by norm_num) (by omega)
  have hlt : (2 : Nat) ^ k < U64 := by
    rw [U64_eq]
    exact Nat.pow_lt_pow_right (by norm_num) (by omega)
  have hmod : (2 ^ k - 1 + U64 - 1) % U64 = 2 ^ k - 2 := by
    have hU : 0 < U64 := by norm_num [U64]
    rw [show 2 ^ k - 1 + U64 - 1 = (2 ^ k - 2) + U64 by omega, Nat.add_mod_right,
      Nat.mod_eq_of_lt (by omega)]
  rw [hmod, smear_pred hk2, show (2 : Nat) ^ k - 1 + 1 = 2 ^ k by omega,
    Nat.mod_eq_of_lt hlt]

theorem np2_pred_zero_of_ge64 {k : Nat} (hk : 64 ≤ k) :
    next_power_of_2 (2 ^ k - 1) = 0 := by
  rw [np2_eq]
  have hU : U64 = 18446744073709551616 := rfl
  have h1 : 2 ≤ (2 : Nat) ^ k := by
    calc (2 : Nat) = 2 ^ 1 := by norm_num
    _ ≤ 2 ^ k := Nat.pow_le_pow_right (by norm_num) (by omega)
  obtain ⟨c, hc⟩ : U64 ∣ 2 ^ k := U64_eq ▸ Nat.pow_dvd_pow 2 hk
  have hc1 : 1 ≤ c := by
    rcases Nat.eq_zero_or_pos c with rfl | h
    · omega
    · exact h
  have hmod : (2 ^ k - 1 + U64 - 1) % U64 = U64 - 2 := by
    rw [show 2 ^ k - 1 + U64 - 1 = U64 * c + (U64 - 2) by omega, Nat.mul_add_mod,
      Nat.mod_eq_of_lt (by omega)]
  rw [hmod, show U64 - 2 = 2 ^ 64 - 2 by norm_num [U64], smear_pred (by norm_num),
    show (2 : Nat) ^ 64 - 1 + 1 = 2 ^ 64 by norm_num,
    show (2 : Nat) ^ 64 = U64 from U64_eq.symm, Nat.mod_self]

/-! Lemmas about list surgery used by the builder. -/

theorem writeSlice_exact (pre mid post v : List Hash) (hmid : mid.length = v.length) :
    writeSlice (pre ++ mid ++ post) pre.length v = pre ++ v ++ post := by
  unfold writeSlice
  have h1 : List.take pre.length (pre ++ (mid ++ post)) = pre := List.take_left pre _
  have h2 : List.drop (pre.length + v.length) (pre ++ mid ++ post) = post := by
    rw [← hmid, show pre.length + mid.length = (pre ++ mid).length by simp,
      List.append_assoc, ← List.append_assoc, List.drop_left]
  rw [← List.append_assoc] at h1
  rw [h1, h2]

theorem headD_eq_getD (l : List Hash) : l.headD [] = l.getD 0 [] := by
  cases l <;> rfl

theorem set_zero_getD (l : List Hash) (hl : l ≠ []) : l.set 0 (l.getD 0 []) = l := by
  cases l with
  | nil => exact absurd rfl hl
  | cons a t => rfl

/-! Characterization of the builder on power-of-two leaf counts. -/

theorem buildLoop_pow2 (j : Nat) : ∀ (f : Nat) (p rest : List Hash),
    p.length = 2 ^ j → j + 1 ≤ f →
    ∃ q : List Hash, q ≠ [] ∧
      buildLoop f (List.replicate (2 ^ j - 1) ([] : Hash) ++ p ++ rest) p (2 ^ j - 1) =
        (heapAboveP j p ++ p ++ rest, q) ∧
      q.headD [] = (heapAboveP j p ++ p).getD 0 [] := by
  induction j with
  | zero =>
    intro f p rest hp hf
    obtain ⟨f0, rfl⟩ : ∃ f0, f = f0 + 1 := ⟨f - 1, by omega⟩
    simp only [pow_zero] at hp
    refine ⟨p, ?_, ?_, ?_⟩
    · intro h
      rw [h] at hp
      simp at hp
    · simp [buildLoop, hp, heapAboveP]
    · simp only [heapAboveP, List.nil_append]
      exact headD_eq_getD p
  | succ j ih =>
    intro f p rest hp hf
    obtain ⟨f0, rfl⟩ : ∃ f0, f = f0 + 1 := ⟨f - 1, by omega⟩
    have hpow : (2 : Nat) ^ j ≥ 1 := Nat.one_le_two_pow
    have hp2 : (2 : Nat) ^ (j + 1) = 2 * 2 ^ j := by rw [pow_succ]; ring
    have hlen2 : (construct_upper_level p).length = 2 ^ j := by
      rw [cul_length, hp]; omega
    have hws : writeSlice (List.replicate (2 ^ (j + 1) - 1) ([] : Hash) ++ p ++ rest)
        ((2 ^ (j + 1) - 1) - (construct_upper_level p).length) (construct_upper_level p) =
        List.replicate (2 ^ j - 1) ([] : Hash) ++ construct_upper_level p ++ (p ++ rest) := by
      rw [hlen2, show (2 ^ (j + 1) - 1) - 2 ^ j = 2 ^ j - 1 by omega,
        show (2 : Nat) ^ (j + 1) - 1 = (2 ^ j - 1) + 2 ^ j by omega, List.replicate_add]
      have h := writeSlice_exact (List.replicate (2 ^ j - 1) ([] : Hash))
        (List.replicate (2 ^ j) ([] : Hash)) (p ++ rest) (construct_upper_level p)
        (by simp [hlen2])
      simpa [List.length_replicate, List.append_assoc] using h
    obtain ⟨q, hq1, hq2, hq3⟩ := ih f0 (construct_upper_level p) (p ++ rest) hlen2 (by omega)
    refine ⟨q, hq1, ?_, ?_⟩
    · simp only [buildLoop, hp, gt_iff_lt]
      rw [if_pos (by omega)]
      rw [hws]
      rw [hlen2, show (2 ^ (j + 1) - 1) - 2 ^ j = 2 ^ j - 1 by omega]
      rw [hq2]
      simp [heapAboveP, List.append_assoc]
    · rw [hq3]
      have hne : 0 < (heapAboveP j (construct_upper_level p) ++ construct_upper_level p).length := by
        simp only [List.length_append, hlen2]
        omega
      rw [show heapAboveP (j + 1) p ++ p
          = (heapAboveP j (construct_upper_level p) ++ construct_upper_level p) ++ p by
        simp [heapAboveP, List.append_assoc]]
      rw [List.getD_append _ _ _ _ hne]

theorem build_tree_single (x : Hash) : build_tree_from_leaves [x] = some [x] := by
  simp only [build_tree_from_leaves, List.length_cons, List.length_nil]
  norm_num [show next_power_of_2 1 = 1 from rfl]
  simp [build_internal_nodes, writeSlice, construct_upper_level]

theorem build_pow2 {k : Nat} (hk : k ≤ 63) (leaves : List Hash)
    (hl : leaves.length = 2 ^ k) :
    build_tree_from_leaves leaves = some (heapAboveP k leaves ++ leaves) := by
  rcases Nat.eq_zero_or_pos k with hk0 | hkpos
  · subst hk0
    simp only [pow_zero] at hl
    obtain ⟨x, rfl⟩ := List.length_eq_one.1 hl
    simpa [heapAboveP] using build_tree_single x
  obtain ⟨k0, rfl⟩ : ∃ k0, k = k0 + 1 := ⟨k - 1, by omega⟩
  have hp2 : (2 : Nat) ^ (k0 + 1) = 2 * 2 ^ k0 := by rw [pow_succ]; ring
  have hpow : (2 : Nat) ^ k0 ≥ 1 := Nat.one_le_two_pow
  have hnp := np2_two_pow hk
  have hculen : (construct_upper_level leaves).length = 2 ^ k0 := by
    rw [cul_length, hl]; omega
  have hws : writeSlice (List.replicate (2 ^ (k0 + 1) - 1 + 2 ^ (k0 + 1)) ([] : Hash))
      (2 ^ (k0 + 1) - 1) leaves = List.replicate (2 ^ (k0 + 1) - 1) ([] : Hash) ++ leaves := by
    rw [List.replicate_add]
    have h := writeSlice_exact (List.replicate (2 ^ (k0 + 1) - 1) ([] : Hash))
      (List.replicate (2 ^ (k0 + 1)) ([] : Hash)) [] leaves (by simp [hl])
    rw [List.length_replicate] at h
    simpa using h
  have hdrop : List.drop (2 ^ (k0 + 1) - 1)
      (List.replicate (2 ^ (k0 + 1) - 1) ([] : Hash) ++ leaves) = leaves := by
    have h := List.drop_left (List.replicate (2 ^ (k0 + 1) - 1) ([] : Hash)) leaves
    rw [List.length_replicate] at h
    exact h
  have hws2 : writeSlice (List.replicate (2 ^ (k0 + 1) - 1) ([] : Hash) ++ leaves)
      ((2 ^ (k0 + 1) - 1) - (construct_upper_level leaves).length)
      (construct_upper_level leaves) =
      List.replicate (2 ^ k0 - 1) ([] : Hash) ++ construct_upper_level leaves ++ leaves := by
    rw [hculen, show (2 ^ (k0 + 1) - 1) - 2 ^ k0 = 2 ^ k0 - 1 by omega,
      show (2 : Nat) ^ (k0 + 1) - 1 = (2 ^ k0 - 1) + 2 ^ k0 by omega, List.replicate_add]
    have h := writeSlice_exact (List.replicate (2 ^ k0 - 1) ([] : Hash))
      (List.replicate (2 ^ k0) ([] : Hash)) leaves (construct_upper_level leaves)
      (by simp [hculen])
    simpa [List.length_replicate, List.append_assoc] using h
  obtain ⟨q, hq1, hq2, hq3⟩ := buildLoop_pow2 k0 (2 ^ k0 + 1) (construct_upper_level leaves)
    leaves hculen (by have := Nat.lt_two_pow k0; omega)
  simp only [build_tree_from_leaves, List.length_map, hl, hnp]
  rw [if_neg (by positivity)]
  rw [hws]
  simp only [build_internal_nodes, hdrop]
  rw [if_neg (by rw [hculen]; omega)]
  rw [hws2, hculen]
  rw [show (2 : Nat) ^ (k0 + 1) - 1 - 2 ^ k0 = 2 ^ k0 - 1 by omega]
  rw [hq2]
  have hres : heapAboveP k0 (construct_upper_level leaves) ++ construct_upper_level leaves ++ leaves
      = heapAboveP (k0 + 1) leaves ++ leaves := by
    simp [heapAboveP, List.append_assoc]
  have hne : heapAboveP k0 (construct_upper_level leaves) ++ construct_upper_level leaves ++ leaves ≠ [] := by
    simp only [ne_eq, List.append_eq_nil]
    intro h
    have h2 := h.1.2
    rw [← List.length_eq_zero, hculen] at h2
    omega
  have hgd : (heapAboveP k0 (construct_upper_level leaves) ++ construct_upper_level leaves ++ leaves).getD 0 []
      = (heapAboveP k0 (construct_upper_level leaves) ++ construct_upper_level leaves).getD 0 [] :=
    List.getD_append _ _ _ 0 (by simp only [List.length_append, hculen]; omega)
  rw [hq3, ← hgd, set_zero_getD _ hne, hres]

theorem build_pred {k : Nat} (hk2 : 2 ≤ k) (hk : k ≤ 63) (leaves : List Hash)
    (hl : leaves.length = 2 ^ k - 1) :
    build_tree_from_leaves leaves =
      some (heapAboveP (k - 1) (construct_upper_level leaves) ++
        construct_upper_level leaves ++ leaves) := by
  obtain ⟨k0, rfl⟩ : ∃ k0, k = k0 + 1 := ⟨k - 1, by omega⟩
  simp only [Nat.add_sub_cancel]
  have hp2 : (2 : Nat) ^ (k0 + 1) = 2 * 2 ^ k0 := by rw [pow_succ]; ring
  have hpow : (2 : Nat) ^ k0 ≥ 2 := by
    calc (2 : Nat) = 2 ^ 1 := by norm_num
    _ ≤ 2 ^ k0 := Nat.pow_le_pow_right (by norm_num) (by omega)
  have hnp := np2_pred hk2 hk
  have hculen : (construct_upper_level leaves).length = 2 ^ k0 := by
    rw [cul_length, hl]; omega
  have hws : writeSlice
      (List.replicate (2 ^ (k0 + 1) - 1 + (2 ^ (k0 + 1) - 1)) ([] : Hash))
      (2 ^ (k0 + 1) - 1) leaves
      = List.replicate (2 ^ (k0 + 1) - 1) ([] : Hash) ++ leaves := by
    rw [List.replicate_add]
    have h := writeSlice_exact (List.replicate (2 ^ (k0 + 1) - 1) ([] : Hash))
      (List.replicate (2 ^ (k0 + 1) - 1) ([] : Hash)) [] leaves (by simp [hl])
    rw [List.length_replicate] at h
    simpa using h
  have hdrop : List.drop (2 ^ (k0 + 1) - 1)
      (List.replicate (2 ^ (k0 + 1) - 1) ([] : Hash) ++ leaves) = leaves := by
    have h := List.drop_left (List.replicate (2 ^ (k0 + 1) - 1) ([] : Hash)) leaves
    rw [List.length_replicate] at h
    exact h
  have hws2 : writeSlice (List.replicate (2 ^ (k0 + 1) - 1) ([] : Hash) ++ leaves)
      ((2 ^ (k0 + 1) - 1) - (construct_upper_level leaves).length)
      (construct_upper_level leaves) =
      List.replicate (2 ^ k0 - 1) ([] : Hash) ++ construct_upper_level leaves ++ leaves := by
    rw [hculen, show (2 ^ (k0 + 1) - 1) - 2 ^ k0 = 2 ^ k0 - 1 by omega,
      show (2 : Nat) ^ (k0 + 1) - 1 = (2 ^ k0 - 1) + 2 ^ k0 by omega, List.replicate_add]
    have h := writeSlice_exact (List.replicate (2 ^ k0 - 1) ([] : Hash))
      (List.replicate (2 ^ k0) ([] : Hash)) leaves (construct_upper_level leaves)
      (by simp [hculen])
    simpa [List.length_replicate, List.append_assoc] using h
  obtain ⟨q, hq1, hq2, hq3⟩ := buildLoop_pow2 k0 (2 ^ k0 + 1) (construct_upper_level leaves)
    leaves hculen (by have := Nat.lt_two_pow k0; omega)
  simp only [build_tree_from_leaves, hl, hnp]
  rw [if_neg (by positivity)]
  rw [hws]
  simp only [build_internal_nodes, hdrop]
  rw [if_neg (by rw [hculen]; omega)]
  rw [hws2, hculen]
  rw [show (2 : Nat) ^ (k0 + 1) - 1 - 2 ^ k0 = 2 ^ k0 - 1 by omega]
  rw [hq2]
  have hne : heapAboveP k0 (construct_upper_level leaves) ++ construct_upper_level leaves ++ leaves ≠ [] := by
    simp only [ne_eq, List.append_eq_nil]
    intro h
    have h2 := h.1.2
    rw [← List.length_eq_zero, hculen] at h2
    omega
  have hgd : (heapAboveP k0 (construct_upper_level leaves) ++ construct_upper_level leaves ++ leaves).getD 0 []
      = (heapAboveP k0 (construct_upper_level leaves) ++ construct_upper_level leaves).getD 0 [] :=
    List.getD_append _ _ _ 0 (by simp only [List.length_append, hculen]; omega)
  rw [hq3, ← hgd, set_zero_getD _ hne]

/-! Lengths and the heap invariant of the power-of-two layout. -/

theorem heapAboveP_length : ∀ (k : Nat) (l : List Hash), l.length = 2 ^ k →
    (heapAboveP k l).length = 2 ^ k - 1
  | 0, _, _ => rfl
  | k + 1, l, hl => by
    have hpow : (2 : Nat) ^ k ≥ 1 := Nat.one_le_two_pow
    have hp2 : (2 : Nat) ^ (k + 1) = 2 * 2 ^ k := by rw [pow_succ]; ring
    have hc : (construct_upper_level l).length = 2 ^ k := by rw [cul_length, hl]; omega
    have ih := heapAboveP_length k (construct_upper_level l) hc
    simp only [heapAboveP, List.length_append, ih, hc]
    omega

theorem heap_inv_pow2 : ∀ (k : Nat) (l : List Hash), l.length = 2 ^ k →
    heap_invariant (heapAboveP k l ++ l)
  | 0, l, hl => by
    intro i hi
    simp only [heapAboveP, List.nil_append, hl] at hi
    omega
  | k + 1, l, hl => by
    have hpow : (2 : Nat) ^ k ≥ 1 := Nat.one_le_two_pow
    have hp2 : (2 : Nat) ^ (k + 1) = 2 * 2 ^ k := by rw [pow_succ]; ring
    have hc : (construct_upper_level l).length = 2 ^ k := by rw [cul_length, hl]; omega
    have hA : (heapAboveP k (construct_upper_level l)).length = 2 ^ k - 1 :=
      heapAboveP_length k _ hc
    have ih := heap_inv_pow2 k (construct_upper_level l) hc
    have hNlen : (heapAboveP k (construct_upper_level l) ++ construct_upper_level l).length
        = 2 ^ (k + 1) - 1 := by
      simp only [List.length_append, hA, hc]
      omega
    intro i hi
    have hsh : heapAboveP (k + 1) l ++ l
        = (heapAboveP k (construct_upper_level l) ++ construct_upper_level l) ++ l := by
      simp [heapAboveP, List.append_assoc]
    rw [hsh] at hi ⊢
    rw [List.length_append, hNlen, hl] at hi
    rcases Nat.lt_or_ge (2 * i + 2) (2 ^ (k + 1) - 1) with hcase | hcase
    · rw [List.getD_append _ _ _ i (by rw [hNlen]; omega),
        List.getD_append _ _ _ (2 * i + 1) (by rw [hNlen]; omega),
        List.getD_append _ _ _ (2 * i + 2) (by rw [hNlen]; omega)]
      exact ih i (by rw [hNlen]; omega)
    · have hi1 : i < 2 ^ (k + 1) - 1 := by omega
      have hi2 : 2 ^ k - 1 ≤ i := by omega
      rw [List.getD_append _ _ _ i (by rw [hNlen]; omega),
        List.getD_append_right _ _ _ (2 * i + 1) (by rw [hNlen]; omega),
        List.getD_append_right _ _ _ (2 * i + 2) (by rw [hNlen]; omega),
        List.getD_append_right _ _ _ i (by rw [hA]; omega)]
      rw [hNlen, hA]
      have e1 : 2 * i + 1 - (2 ^ (k + 1) - 1) = 2 * (i - (2 ^ k - 1)) := by omega
      have e2 : 2 * i + 2 - (2 ^ (k + 1) - 1) = 2 * (i - (2 ^ k - 1)) + 1 := by omega
      rw [e1, e2]
      exact cul_getD l (i - (2 ^ k - 1)) (by rw [hl]; omega)

theorem heap_inv_pred (k : Nat) (hk2 : 2 ≤ k) (l : List Hash)
    (hl : l.length = 2 ^ k - 1) :
    heap_invariant (heapAboveP (k - 1) (construct_upper_level l) ++
      construct_upper_level l ++ l) := by
  have hp2 : (2 : Nat) ^ k = 2 * 2 ^ (k - 1) := by
    conv_lhs => rw [show k = (k - 1) + 1 by omega]
    rw [pow_succ]; ring
  have hpow : 2 ≤ (2 : Nat) ^ (k - 1) := by
    calc (2 : Nat) = 2 ^ 1 := by norm_num
    _ ≤ 2 ^ (k - 1) := Nat.pow_le_pow_right (by norm_num) (by omega)
  have hm : (construct_upper_level l).length = 2 ^ (k - 1) := by
    rw [cul_length, hl]; omega
  have hA : (heapAboveP (k - 1) (construct_upper_level l)).length = 2 ^ (k - 1) - 1 :=
    heapAboveP_length (k - 1) _ hm
  have hmain := heap_inv_pow2 (k - 1) (construct_upper_level l) hm
  have hNlen : (heapAboveP (k - 1) (construct_upper_level l) ++ construct_upper_level l).length
      = 2 ^ k - 1 := by
    simp only [List.length_append, hA, hm]
    omega
  intro i hi
  rw [List.length_append, hNlen, hl] at hi
  rcases Nat.lt_or_ge (2 * i + 2) (2 ^ k - 1) with hcase | hcase
  · rw [List.getD_append _ _ _ i (by rw [hNlen]; omega),
      List.getD_append _ _ _ (2 * i + 1) (by rw [hNlen]; omega),
      List.getD_append _ _ _ (2 * i + 2) (by rw [hNlen]; omega)]
    exact hmain i (by rw [hNlen]; omega)
  · have hi1 : i < 2 ^ k - 1 := by omega
    have hi2 : 2 ^ (k - 1) - 1 ≤ i := by omega
    rw [List.getD_append _ _ _ i (by rw [hNlen]; omega),
      List.getD_append_right _ _ _ (2 * i + 1) (by rw [hNlen]; omega),
      List.getD_append_right _ _ _ (2 * i + 2) (by rw [hNlen]; omega),
      List.getD_append_right _ _ _ i (by rw [hA]; omega)]
    rw [hNlen, hA]
    have e1 : 2 * i + 1 - (2 ^ k - 1) = 2 * (i - (2 ^ (k - 1) - 1)) := by omega
    have e2 : 2 * i + 2 - (2 ^ k - 1) = 2 * (i - (2 ^ (k - 1) - 1)) + 1 := by omega
    rw [e1, e2]
    exact cul_getD l (i - (2 ^ (k - 1) - 1)) (by rw [hl]; omega)

/-! Lemmas about the proof-generation walk. -/

theorem proveLoop_zero (nodes : List Hash) (f : Nat) : proveLoop nodes f 0 [] = [] := by
  cases f <;> simp [proveLoop]

theorem proveLoop_acc (nodes : List Hash) : ∀ (f c : Nat) (acc : List (HashDirection × Hash)),
    proveLoop nodes f c acc = acc ++ proveLoop nodes f c [] := by
  intro f
  induction f with
  | zero => intro c acc; simp [proveLoop]
  | succ f ih =>
    intro c acc
    by_cases hc : c = 0
    · subst hc; simp [proveLoop]
    by_cases h1 : c = 1
    · subst h1; simp [proveLoop]
    simp only [proveLoop, if_neg hc, if_neg h1]
    conv_lhs => rw [ih]
    conv_rhs => rw [ih]
    simp [List.append_assoc]

theorem proveLoop_one (nodes : List Hash) (f : Nat) :
    proveLoop nodes (f + 1) 1 [] = [(HashDirection.Left, nodes.getD 2 [])] := by
  simp [proveLoop]

theorem proveLoop_even (nodes : List Hash) (f c : Nat) (hc : 0 < c) (he : c % 2 = 0) :
    proveLoop nodes (f + 1) c [] =
      (HashDirection.Right, nodes.getD (c - 1) []) :: proveLoop nodes f ((c - 1) / 2) [] := by
  simp only [proveLoop, if_neg (by omega : ¬ c = 0), he, if_pos, if_neg (by omega : ¬ c = 1)]
  rw [proveLoop_acc]
  simp

theorem proveLoop_odd (nodes : List Hash) (f c : Nat) (ho : c % 2 = 1) (h1 : c ≠ 1) :
    proveLoop nodes (f + 1) c [] =
      (HashDirection.Left, nodes.getD (c + 1) []) :: proveLoop nodes f ((c - 1) / 2) [] := by
  simp only [proveLoop, if_neg (by omega : ¬ c = 0), if_neg (by omega : ¬ c % 2 = 0),
    if_neg h1]
  rw [proveLoop_acc]
  simp

theorem proveLoop_ne_nil (nodes : List Hash) (f c : Nat) (hc : 0 < c) (hf : 0 < f) :
    proveLoop nodes f c [] ≠ [] := by
  obtain ⟨f0, rfl⟩ : ∃ f0, f = f0 + 1 := ⟨f - 1, by omega⟩
  rcases Nat.even_or_odd c with he | ho
  · rw [proveLoop_even nodes f0 c hc (Nat.even_iff.1 he)]
    simp
  · by_cases h1 : c = 1
    · subst h1; rw [proveLoop_one]; simp
    · rw [proveLoop_odd nodes f0 c (Nat.odd_iff.1 ho) h1]
      simp

theorem verify_step_left (x s : Hash) :
    verify_step x (HashDirection.Left, s) = hash_concat x s := rfl

theorem verify_step_right (x s : Hash) :
    verify_step x (HashDirection.Right, s) = hash_concat s x := rfl

theorem foldPath (nodes : List Hash) : ∀ (f c : Nat),
    c < f → 0 < c → c < nodes.length → (c % 2 = 1 → c + 1 < nodes.length) →
    heap_invariant nodes →
    (proveLoop nodes f c []).foldl verify_step (nodes.getD c []) = nodes.getD 0 [] := by
  intro f
  induction f with
  | zero => intro c h; omega
  | succ f ih =>
    intro c hcf hc hclen hpar hinv
    by_cases h1 : c = 1
    · subst h1
      have h2 : 2 < nodes.length := hpar (by norm_num)
      rw [proveLoop_one]
      simp only [List.foldl_cons, List.foldl_nil, verify_step_left]
      exact (hinv 0 (by omega)).symm
    rcases Nat.even_or_odd c with he | ho
    · have he2 := Nat.even_iff.1 he
      have hc2 : 2 ≤ c := by omega
      rw [proveLoop_even nodes f c hc he2]
      simp only [List.foldl_cons, verify_step_right]
      have hstep : hash_concat (nodes.getD (c - 1) []) (nodes.getD c [])
          = nodes.getD ((c - 1) / 2) [] := by
        have h := hinv ((c - 1) / 2) (by omega)
        rw [show 2 * ((c - 1) / 2) + 1 = c - 1 by omega, show 2 * ((c - 1) / 2) + 2 = c by omega] at h
        exact h.symm
      rw [hstep]
      by_cases hp : (c - 1) / 2 = 0
      · rw [hp, proveLoop_zero]
        simp
      · exact ih ((c - 1) / 2) (by omega) (by omega) (by omega) (by intro h; omega) hinv
    · have ho2 := Nat.odd_iff.1 ho
      have hc3 : 3 ≤ c := by omega
      have hsib : c + 1 < nodes.length := hpar ho2
      rw [proveLoop_odd nodes f c ho2 h1]
      simp only [List.foldl_cons, verify_step_left]
      have hstep : hash_concat (nodes.getD c []) (nodes.getD (c + 1) [])
          = nodes.getD ((c - 1) / 2) [] := by
        have h := hinv ((c - 1) / 2) (by omega)
        rw [show 2 * ((c - 1) / 2) + 1 = c by omega, show 2 * ((c - 1) / 2) + 2 = c + 1 by omega] at h
        exact h.symm
      rw [hstep]
      exact ih ((c - 1) / 2) (by omega) (by omega) (by omega) (by intro h; omega) hinv

/-! Lemmas about the linear scan (`Iterator::position`). -/

theorem position_eq_none : ∀ (p : Hash → Bool) (l : List Hash),
    position p l = none ↔ ∀ j < l.length, p (l.getD j []) = false
  | p, [] => by simp [position]
  | p, a :: t => by
    by_cases hp : p a = true
    · simp only [position, if_pos hp]
      constructor
      · intro h; exact absurd h (by simp)
      · intro h
        have h0 := h 0 (by simp)
        rw [List.getD_cons_zero, hp] at h0
        exact absurd h0 (by simp)
    · simp only [position, if_neg hp, Option.map_eq_none']
      rw [position_eq_none p t]
      constructor
      · intro h j hj
        cases j with
        | zero =>
          rw [List.getD_cons_zero]
          simp only [Bool.not_eq_true] at hp
          exact hp
        | succ j =>
          rw [List.getD_cons_succ]
          exact h j (by simp only [List.length_cons] at hj; omega)
      · intro h j hj
        have h2 := h (j + 1) (by simp only [List.length_cons]; omega)
        rwa [List.getD_cons_succ] at h2

theorem position_some : ∀ (p : Hash → Bool) (l : List Hash) (j : Nat),
    position p l = some j → j < l.length ∧ p (l.getD j []) = true
  | p, [], j => by simp [position]
  | p, a :: t, j => by
    by_cases hp : p a = true
    · simp only [position, if_pos hp, Option.some.injEq]
      rintro rfl
      simp [hp]
    · simp only [position, if_neg hp, Option.map_eq_some']
      rintro ⟨j0, hj0, rfl⟩
      obtain ⟨h1, h2⟩ := position_some p t j0 hj0
      refine ⟨by simp only [List.length_cons]; omega, ?_⟩
      rwa [List.getD_cons_succ]

theorem position_zero : ∀ (p : Hash → Bool) (l : List Hash),
    position p l = some 0 ↔ 0 < l.length ∧ p (l.getD 0 []) = true
  | p, [] => by simp [position]
  | p, a :: t => by
    by_cases hp : p a = true
    · simp [position, hp]
    · simp only [position, if_neg hp]
      constructor
      · intro h
        obtain ⟨j0, _, hj⟩ := Option.map_eq_some'.1 h
        omega
      · rintro ⟨h1, h2⟩
        rw [List.getD_cons_zero] at h2
        exact absurd h2 hp

theorem position_min : ∀ (p : Hash → Bool) (l : List Hash) (j : Nat),
    position p l = some j → ∀ i, i < j → p (l.getD i []) = false
  | p, [], j => by simp [position]
  | p, a :: t, j => by
    by_cases hp : p a = true
    · simp only [position, if_pos hp, Option.some.injEq]
      rintro rfl
      intro i hi
      omega
    · simp only [position, if_neg hp, Option.map_eq_some']
      rintro ⟨j0, hj0, rfl⟩
      intro i hi
      cases i with
      | zero =>
        rw [List.getD_cons_zero]
        simp only [Bool.not_eq_true] at hp
        exact hp
      | succ i =>
        rw [List.getD_cons_succ]
        exact position_min p t j0 hj0 i (by omega)

theorem position_ne_none (p : Hash → Bool) (l : List Hash) (j : Nat)
    (hj : j < l.length) (hp : p (l.getD j []) = true) : position p l ≠ none := by
  intro h
  have h2 := (position_eq_none p l).1 h j hj
  rw [hp] at h2
  exact absurd h2 (by simp)

/-! Characterization of `prove`. -/

theorem prove_of_position_pos (nodes : List Hash) (data : Data) (j : Nat)
    (hpos : position (fun h => decide (h = hash_data data)) nodes = some j) (hj : 0 < j) :
    prove nodes data = some (proveLoop nodes (j + 1) j []) := by
  obtain ⟨a, t2, hat⟩ :=
    List.exists_cons_of_ne_nil (proveLoop_ne_nil nodes (j + 1) j hj (by omega))
  simp [prove, hpos, hat]

theorem prove_eq_none_iff (nodes : List Hash) (data : Data) :
    prove nodes data = none ↔
      (position (fun h => decide (h = hash_data data)) nodes = none ∨
       position (fun h => decide (h = hash_data data)) nodes = some 0) := by
  rcases hpos : position (fun h => decide (h = hash_data data)) nodes with _ | j
  · simp [prove, hpos]
  · by_cases hj : j = 0
    · subst hj
      simp [prove, hpos, proveLoop_zero]
    · obtain ⟨a, t2, hat⟩ :=
        List.exists_cons_of_ne_nil (proveLoop_ne_nil nodes (j + 1) j (by omega) (by omega))
      simp [prove, hpos, hat, hj]

theorem prove_some_spec (nodes : List Hash) (data : Data)
    (pf : List (HashDirection × Hash)) (h : prove nodes data = some pf) :
    ∃ j, position (fun x => decide (x = hash_data data)) nodes = some j ∧ 0 < j ∧
      pf = proveLoop nodes (j + 1) j [] := by
  rcases hpos : position (fun x => decide (x = hash_data data)) nodes with _ | j
  · unfold prove at h
    rw [hpos] at h
    simp at h
  · unfold prove at h
    rw [hpos] at h
    by_cases hj : j = 0
    · subst hj
      simp [proveLoop_zero] at h
    · obtain ⟨a, t2, hat⟩ :=
        List.exists_cons_of_ne_nil (proveLoop_ne_nil nodes (j + 1) j (by omega) (by omega))
      simp [hat] at h
      subst h
      exact ⟨j, rfl, by omega, hat.symm⟩

/-! Helpers tying `construct` to the power-of-two layout. -/

theorem getD_map_hash (B : List Data) (i : Nat) (h : i < B.length) :
    (B.map hash_data).getD i [] = hash_data (B.getD i []) := by
  rw [List.getD_eq_getElem _ _ (by simpa using h), List.getElem_map,
    List.getD_eq_getElem _ _ h]

theorem construct_pow2 {B : List Data} {k : Nat} (hk : k ≤ 63) (hB : B.length = 2 ^ k) :
    construct B = some (heapAboveP k (B.map hash_data) ++ B.map hash_data) := by
  unfold construct
  exact build_pow2 hk _ (by simpa using hB)

theorem k_le_63_of_construct (B : List Data) (k : Nat) (t : List Hash)
    (hB : B.length = 2 ^ k) (h : construct B = some t) : k ≤ 63 := by
  by_contra hk
  have h0 : next_power_of_2 B.length = 0 := by
    rw [hB]
    exact np2_zero_of_ge64 (by omega)
  unfold construct build_tree_from_leaves at h
  simp [h0] at h

theorem tree_shape (B : List Data) (k : Nat) (t : List Hash)
    (hB : B.length = 2 ^ k) (h : construct B = some t) :
    t = heapAboveP k (B.map hash_data) ++ B.map hash_data := by
  have hk := k_le_63_of_construct B k t hB h
  have h2 := construct_pow2 hk hB
  rw [h] at h2
  exact Option.some.inj h2

theorem tree_length (B : List Data) (k : Nat) (hB : B.length = 2 ^ k) :
    (heapAboveP k (B.map hash_data) ++ B.map hash_data).length = 2 ^ (k + 1) - 1 := by
  have hpow : (2 : Nat) ^ k ≥ 1 := Nat.one_le_two_pow
  have h1 : (B.map hash_data).length = 2 ^ k := by simpa using hB
  rw [List.length_append, heapAboveP_length k _ h1, h1, pow_succ]
  omega

theorem tree_facts (B : List Data) (k : Nat) (t : List Hash)
    (hB : B.length = 2 ^ k) (hct : construct B = some t) :
    t.length = 2 ^ (k + 1) - 1 ∧ t.length % 2 = 1 ∧ heap_invariant t := by
  have hts := tree_shape B k t hB hct
  have hlen : t.length = 2 ^ (k + 1) - 1 := by
    rw [hts]
    exact tree_length B k hB
  refine ⟨hlen, ?_, ?_⟩
  · rw [hlen]
    have hp2 : (2 : Nat) ^ (k + 1) = 2 * 2 ^ k := by rw [pow_succ]; ring
    have hpow : (2 : Nat) ^ k ≥ 1 := Nat.one_le_two_pow
    omega
  · rw [hts]
    exact heap_inv_pow2 k _ (by simpa using hB)

theorem construct_pred {B : List Data} {k : Nat} (hk2 : 2 ≤ k) (hk : k ≤ 63)
    (hB : B.length = 2 ^ k - 1) :
    construct B = some (heapAboveP (k - 1) (construct_upper_level (B.map hash_data)) ++
      construct_upper_level (B.map hash_data) ++ B.map hash_data) := by
  unfold construct
  exact build_pred hk2 hk _ (by simpa using hB)

theorem k_le_63_pred (B : List Data) (k : Nat) (t : List Hash)
    (hB : B.length = 2 ^ k - 1) (h : construct B = some t) : k ≤ 63 := by
  by_contra hk
  have h0 : next_power_of_2 B.length = 0 := by
    rw [hB]
    exact np2_pred_zero_of_ge64 (by omega)
  unfold construct build_tree_from_leaves at h
  simp [h0] at h

theorem tree_shape_pred (B : List Data) (k : Nat) (t : List Hash) (hk2 : 2 ≤ k)
    (hB : B.length = 2 ^ k - 1) (h : construct B = some t) :
    t = heapAboveP (k - 1) (construct_upper_level (B.map hash_data)) ++
      construct_upper_level (B.map hash_data) ++ B.map hash_data := by
  have hk := k_le_63_pred B k t hB h
  have h2 := construct_pred hk2 hk hB
  rw [h] at h2
  exact Option.some.inj h2

theorem tree_facts_pred (B : List Data) (k : Nat) (t : List Hash)
    (hk2 : 2 ≤ k) (hB : B.length = 2 ^ k - 1) (hct : construct B = some t) :
    t.length = 2 ^ (k + 1) - 2 ∧ heap_invariant t ∧
    t.getD (2 ^ k - 2) [] = t.getD (2 ^ (k + 1) - 3) [] ∧
    ∀ i, i < B.length → t.getD (2 ^ k - 1 + i) [] = hash_data (B.getD i []) := by
  have hts := tree_shape_pred B k t hk2 hB hct
  have hp2 : (2 : Nat) ^ k = 2 * 2 ^ (k - 1) := by
    conv_lhs => rw [show k = (k - 1) + 1 by omega]
    rw [pow_succ]; ring
  have hp3 : (2 : Nat) ^ (k + 1) = 2 * 2 ^ k := by rw [pow_succ]; ring
  have hpow : 2 ≤ (2 : Nat) ^ (k - 1) := by
    calc (2 : Nat) = 2 ^ 1 := by norm_num
    _ ≤ 2 ^ (k - 1) := Nat.pow_le_pow_right (by norm_num) (by omega)
  have hmapl : (B.map hash_data).length = 2 ^ k - 1 := by simpa using hB
  have hm : (construct_upper_level (B.map hash_data)).length = 2 ^ (k - 1) := by
    rw [cul_length, hmapl]; omega
  have hA : (heapAboveP (k - 1) (construct_upper_level (B.map hash_data))).length
      = 2 ^ (k - 1) - 1 := heapAboveP_length (k - 1) _ hm
  have hAm : (heapAboveP (k - 1) (construct_upper_level (B.map hash_data)) ++
      construct_upper_level (B.map hash_data)).length = 2 ^ k - 1 := by
    simp only [List.length_append, hA, hm]
    omega
  refine ⟨?_, ?_, ?_, ?_⟩
  · rw [hts, List.length_append, hAm, hmapl]
    omega
  · rw [hts]
    exact heap_inv_pred k hk2 (B.map hash_data) hmapl
  · rw [hts]
    rw [List.getD_append _ _ _ (2 ^ k - 2) (by rw [hAm]; omega),
      List.getD_append_right _ _ _ (2 ^ k - 2) (by rw [hA]; omega),
      List.getD_append_right _ _ _ (2 ^ (k + 1) - 3) (by rw [hAm]; omega)]
    rw [hA, hAm]
    have hlast := cul_last_odd (B.map hash_data) (by rw [hmapl]; omega)
    rw [hmapl] at hlast
    rw [show 2 ^ k - 2 - (2 ^ (k - 1) - 1) = (2 ^ k - 1) / 2 by omega,
      show 2 ^ (k + 1) - 3 - (2 ^ k - 1) = 2 ^ k - 1 - 1 by omega]
    exact hlast
  · intro i hi
    rw [hts, List.getD_append_right _ _ _ (2 ^ k - 1 + i) (by rw [hAm]; omega), hAm,
      show 2 ^ k - 1 + i - (2 ^ k - 1) = i by omega]
    exact getD_map_hash B i hi

theorem prove_verify_of_aligned (t : List Hash) (data : Data)
    (hinv : heap_invariant t)
    (hex : ∃ idx, idx < t.length ∧ t.getD idx [] = hash_data data)
    (hroot : hash_data data ≠ root t)
    (hlast : ∀ j, position (fun x => decide (x = hash_data data)) t = some j →
      j % 2 = 1 → j + 1 < t.length) :
    ∃ pf, prove t data = some pf ∧ verify_proof data pf (root t) = true := by
  obtain ⟨idx, hidx, hmatch⟩ := hex
  have hnn := position_ne_none (fun x => decide (x = hash_data data)) t idx hidx (by
    show decide (t.getD idx [] = hash_data data) = true
    rw [hmatch]
    simp)
  rcases hpos : position (fun x => decide (x = hash_data data)) t with _ | j
  · exact absurd hpos hnn
  obtain ⟨hjlen, hjp⟩ := position_some _ _ _ hpos
  have hjhash : t.getD j [] = hash_data data := by simpa using hjp
  have hj0 : j ≠ 0 := by
    intro hj
    subst hj
    exact hroot hjhash.symm
  refine ⟨proveLoop t (j + 1) j [],
    prove_of_position_pos t data j hpos (by omega), ?_⟩
  unfold verify_proof
  simp only [decide_eq_true_eq]
  rw [← hjhash, foldPath t (j + 1) j (by omega) (by omega) (by omega) (hlast j hpos) hinv]
  rfl

end MerkleTree

namespace MerkleTree

/-! Theorems settling the claims. -/

/-- Claim C1, counterexample: for the single-block sequence `[[0]]`,
`construct` succeeds with the one-node tree, but `prove` applied to that
very block returns `none` (the match is at index 0, the root), so the
claim that `prove(construct(B), B[i])` always returns `Some` fails at
`B = [[0]]`, `i = 0`. -/
theorem claim_C1_cex :
    construct [[0]] = some [hash_data [0]] ∧ prove [hash_data [0]] [0] = none :=
  ⟨rfl, rfl⟩

/-- Claim C1 as amended: for every block sequence `B` whose length is
two to the `k` or two to the `k` minus 1 for some `k` (the lengths for
which the level sizes exactly fill the internal region), is at least 2,
and every valid index `i` such that the leaf hash of `B[i]` differs from
the root hash, `prove(construct(B), B[i])` returns `Some` proof and
`verify_proof(B[i], proof, root)` returns true. -/
theorem claim_C1 (B : List Data) (k i : Nat) (t : List Hash)
    (hB : B.length = 2 ^ k ∨ B.length = 2 ^ k - 1) (hlen2 : 2 ≤ B.length)
    (hi : i < B.length) (hct : construct B = some t)
    (hroot : hash_data (B.getD i []) ≠ root t) :
    ∃ pf, prove t (B.getD i []) = some pf ∧
      verify_proof (B.getD i []) pf (root t) = true := by
  rcases hB with hB | hB
  · obtain ⟨hlen, hodd, hinv⟩ := tree_facts B k t hB hct
    have hts := tree_shape B k t hB hct
    have hmap : (B.map hash_data).length = 2 ^ k := by simpa using hB
    have hAlen : (heapAboveP k (B.map hash_data)).length = 2 ^ k - 1 :=
      heapAboveP_length k _ hmap
    have hpow : (2 : Nat) ^ k ≥ 1 := Nat.one_le_two_pow
    have hiB : i < 2 ^ k := by rw [hB] at hi; exact hi
    have hleaf : t.getD (2 ^ k - 1 + i) [] = hash_data (B.getD i []) := by
      rw [hts, List.getD_append_right _ _ _ _ (by rw [hAlen]; omega), hAlen,
        show 2 ^ k - 1 + i - (2 ^ k - 1) = i by omega]
      exact getD_map_hash B i hi
    have hidx : 2 ^ k - 1 + i < t.length := by
      rw [hlen]
      have hp2 : (2 : Nat) ^ (k + 1) = 2 * 2 ^ k := by rw [pow_succ]; ring
      omega
    apply prove_verify_of_aligned t (B.getD i []) hinv ⟨2 ^ k - 1 + i, hidx, hleaf⟩ hroot
    intro j hpos hjodd
    have hjl := (position_some _ _ _ hpos).1
    omega
  · have hk2 : 2 ≤ k := by
      rcases k with _ | _ | k
      · rw [pow_zero] at hB; omega
      · rw [pow_one] at hB; omega
      · omega
    obtain ⟨hlen, hinv, hclone, hleafs⟩ := tree_facts_pred B k t hk2 hB hct
    have hpow : 4 ≤ (2 : Nat) ^ k := by
      calc (4 : Nat) = 2 ^ 2 := by norm_num
      _ ≤ 2 ^ k := Nat.pow_le_pow_right (by norm_num) hk2
    have hp3 : (2 : Nat) ^ (k + 1) = 2 * 2 ^ k := by rw [pow_succ]; ring
    have hiB : i < 2 ^ k - 1 := by rw [hB] at hi; exact hi
    apply prove_verify_of_aligned t (B.getD i []) hinv
      ⟨2 ^ k - 1 + i, by omega, hleafs i hi⟩ hroot
    intro j hpos hjodd
    have hjl := position_some _ _ _ hpos
    by_contra hj1
    push_neg at hj1
    have hjeq : j = 2 ^ (k + 1) - 3 := by omega
    have hv : t.getD (2 ^ k - 2) [] = hash_data (B.getD i []) := by
      rw [hclone, ← hjeq]
      simpa using hjl.2
    have hmin := position_min _ _ _ hpos (2 ^ k - 2) (by omega)
    rw [hv] at hmin
    simp at hmin

/-- Claim C1, witness: the amended statement applied to the concrete
three-block sequence `[[0], [1], [2]]` (length 3, two to the 2 minus 1)
at index 0. -/
theorem claim_C1_witness :
    ∃ pf, prove ((construct [[0], [1], [2]]).getD []) [0] = some pf ∧
      verify_proof [0] pf (root ((construct [[0], [1], [2]]).getD [])) = true :=
  claim_C1 [[0], [1], [2]] 2 0 ((construct [[0], [1], [2]]).getD []) (Or.inr rfl)
    (by norm_num) (by norm_num) rfl (by decide)

/-- Claim C2, counterexample: in the tree built from the five single-byte
blocks 0..4, index 0 is a non-leaf slot (the 5 leaves occupy indices
7..11 of the 12-entry array) and both child indices 1 and 2 are inside
the array, yet `nodes[0]` is not the digest of `nodes[1] ++ nodes[2]`. -/
theorem claim_C2_cex :
    ∃ t, construct [[0], [1], [2], [3], [4]] = some t ∧ t.length = 12 ∧
      2 * 0 + 2 < t.length ∧
      t.getD 0 [] ≠ hash_concat (t.getD (2 * 0 + 1) []) (t.getD (2 * 0 + 2) []) :=
  ⟨(construct [[0], [1], [2], [3], [4]]).getD [], rfl, rfl, by decide, by decide⟩

/-- Claim C2 as amended: in every tree built by `construct` from a block
sequence whose length is two to the `k` or two to the `k` minus 1 for
some `k` (the lengths for which the level sizes exactly fill the
internal region), every index whose two child slots `2i+1` and `2i+2`
are inside the node array stores the digest of the concatenation of its
children in left-right order. -/
theorem claim_C2 (B : List Data) (k : Nat) (t : List Hash)
    (hB : B.length = 2 ^ k ∨ B.length = 2 ^ k - 1) (hct : construct B = some t) :
    ∀ i : Nat, 2 * i + 2 < t.length →
      t.getD i [] = hash_concat (t.getD (2 * i + 1) []) (t.getD (2 * i + 2) []) := by
  intro i hi
  rcases hB with hB | hB
  · have hts := tree_shape B k t hB hct
    rw [hts] at hi ⊢
    exact heap_inv_pow2 k _ (by simpa using hB) i hi
  · by_cases hk2 : 2 ≤ k
    · exact (tree_facts_pred B k t hk2 hB hct).2.1 i hi
    · rcases k with _ | _ | k
      · rw [pow_zero] at hB
        have hB0 : B = [] := List.length_eq_zero.1 (by omega)
        subst hB0
        rw [show construct ([] : List Data) = none from rfl] at hct
        exact absurd hct (by simp)
      · rw [pow_one] at hB
        obtain ⟨b, rfl⟩ := List.length_eq_one.1 (show B.length = 1 by omega)
        have h1 : construct [b] = some [hash_data b] := by
          have h := build_tree_single (hash_data b)
          simpa [construct] using h
        rw [h1] at hct
        have ht : t = [hash_data b] := (Option.some.inj hct).symm
        rw [ht] at hi
        simp at hi
      · exfalso
        omega

/-- Claim C2, witness: the amended statement applied to the three-block
tree (length 3, two to the 2 minus 1), at the root index 0. -/
theorem claim_C2_witness :
    ((construct [[0], [1], [2]]).getD []).getD 0 [] =
      hash_concat (((construct [[0], [1], [2]]).getD []).getD (2 * 0 + 1) [])
        (((construct [[0], [1], [2]]).getD []).getD (2 * 0 + 2) []) :=
  claim_C2 [[0], [1], [2]] 2 ((construct [[0], [1], [2]]).getD []) (Or.inr rfl) rfl 0
    (by decide)

/-- Claim C3, counterexample: on an odd level the last unpaired node is
pushed unchanged (a clone), not as `Digest(node)`: with the three leaf
hashes of blocks `[0]`, `[1]`, `[2]`, the upper level ends with the
untouched third hash, and that hash differs from its own rehash. -/
theorem claim_C3_cex :
    construct_upper_level [hash_data [0], hash_data [1], hash_data [2]] =
      [hash_concat (hash_data [0]) (hash_data [1]), hash_data [2]] ∧
    hash_data [2] ≠ hash_data (hash_data [2]) :=
  ⟨rfl, by decide⟩

/-- Claim C3 as amended: when a level has an odd number of nodes, the
last unpaired node is carried up to the next level as an unchanged copy
(a clone) of the lone child, not rehashed and not concatenated. -/
theorem claim_C3 (l : List Hash) (a : Hash) (h : l.length % 2 = 0) :
    construct_upper_level (l ++ [a]) = construct_upper_level l ++ [a] :=
  cul_append_singleton l a h

/-- Claim C3, witness: the amended statement applied to a concrete
three-entry level. -/
theorem claim_C3_witness :
    construct_upper_level ([hash_data [0], hash_data [1]] ++ [hash_data [2]]) =
      construct_upper_level [hash_data [0], hash_data [1]] ++ [hash_data [2]] :=
  claim_C3 [hash_data [0], hash_data [1]] (hash_data [2]) rfl

/-- Claim C4, counterexample: on the empty block sequence `construct`
does not return a tree; the `usize` subtraction
`next_power_of_2(0) - 1` underflows and the allocation panics (modelled
as `none`). -/
theorem claim_C4_cex : construct [] = none := rfl

/-- Claim C4 as amended: `construct` returns a fully-built tree on every
non-empty block sequence of machine-representable size (at most `2 ^ 63`
blocks); only the zero-leaf case fails. -/
theorem claim_C4 (B : List Data) (h1 : 1 ≤ B.length) (h2 : B.length ≤ 2 ^ 63) :
    ∃ t, construct B = some t := by
  have hnp : ¬ next_power_of_2 B.length = 0 := np2_ne_zero h1 h2
  refine ⟨build_internal_nodes
    (writeSlice (List.replicate (next_power_of_2 B.length - 1 + B.length) ([] : Hash))
      (next_power_of_2 B.length - 1) (List.map hash_data B))
    (next_power_of_2 B.length - 1), ?_⟩
  simp [construct, build_tree_from_leaves, hnp]

/-- Claim C4, witness: the amended statement applied to the one-block
sequence `[[0]]`. -/
theorem claim_C4_witness : ∃ t, construct [[0]] = some t :=
  claim_C4 [[0]] (by norm_num) (by norm_num)

/-- Claim C5, counterexample: the direction tag does not name the side of
the sibling. On a Left step the code computes `Digest(current ++ sibling)`,
so the source `verify_proof` accepts the proof below while the fold the
claim describes (sibling on the left for a Left tag) rejects it. -/
theorem claim_C5_cex :
    verify_proof [0] [(HashDirection.Left, hash_data [1])]
      (hash_concat (hash_data [0]) (hash_data [1])) = true ∧
    claimed_verify_proof [0] [(HashDirection.Left, hash_data [1])]
      (hash_concat (hash_data [0]) (hash_data [1])) = false :=
  ⟨rfl, by decide⟩

/-- Claim C5 as amended: `verify_proof` starts from `Digest(data)` and,
for each step in order, computes `Digest(current ++ sibling)` when the
tag is Left and `Digest(sibling ++ current)` when the tag is Right (the
tag names the side of the CURRENT hash, the opposite of the side of the
sibling), then returns true exactly when the folded hash equals
`expected_root` byte for byte. -/
theorem claim_C5 (data : Data) (proof : List (HashDirection × Hash)) (root_hash : Hash) :
    verify_proof data proof root_hash = true ↔
      proof.foldl (fun current step =>
        match step.1 with
        | HashDirection.Left => hash_data (current ++ step.2)
        | HashDirection.Right => hash_data (step.2 ++ current)) (hash_data data) =
        root_hash := by
  unfold verify_proof
  simp only [decide_eq_true_eq]
  have hf : verify_step = (fun current (step : HashDirection × Hash) =>
      match step.1 with
      | HashDirection.Left => hash_data (current ++ step.2)
      | HashDirection.Right => hash_data (step.2 ++ current)) := by
    funext c s
    obtain ⟨d, h⟩ := s
    cases d <;> rfl
  rw [hf]

/-- Claim C6: `prove` returns `none` exactly when no slot of the node
array holds the digest of the data or the first matching slot is index 0
(the root); in every other case it returns a proof with at least one
step. -/
theorem claim_C6 (nodes : List Hash) (data : Data) :
    (prove nodes data = none ↔
      ((∀ j < nodes.length, nodes.getD j [] ≠ hash_data data) ∨
       (0 < nodes.length ∧ nodes.getD 0 [] = hash_data data))) ∧
    (∀ pf, prove nodes data = some pf → 0 < pf.length) := by
  constructor
  · rw [prove_eq_none_iff]
    constructor
    · rintro (h | h)
      · left
        intro j hj
        have h2 := (position_eq_none _ _).1 h j hj
        simpa using h2
      · right
        obtain ⟨h1, h2⟩ := (position_zero _ _).1 h
        exact ⟨h1, by simpa using h2⟩
    · rintro (h | h)
      · left
        rw [position_eq_none]
        intro j hj
        simpa using h j hj
      · right
        rw [position_zero]
        exact ⟨h.1, by simpa using h.2⟩
  · intro pf hpf
    obtain ⟨j, hpos, hj, rfl⟩ := prove_some_spec nodes data pf hpf
    obtain ⟨a, t2, hat⟩ :=
      List.exists_cons_of_ne_nil (proveLoop_ne_nil nodes (j + 1) j hj (by omega))
    simp [hat]

/-- Claim C6, witness: applied to the one-node tree holding the hash of
`[0]`, where the first match is the root, so `prove` returns `none`. -/
theorem claim_C6_witness : prove [hash_data [0]] [0] = none :=
  (claim_C6 [hash_data [0]] [0]).1.mpr (Or.inr ⟨by norm_num, rfl⟩)

/-- Claim C7: `next_power_of_2` returns 1 at input 1 as claimed, but at
input 2 to the 32 plus 1 it returns 2 to the 33 minus 1, which is not a
power of two at all: the 64-bit bit-smearing cascade stops at shift 16
and is missing the shift-32 step, so the claim fails for inputs above
2 to the 32 (code bug; the function name and the spec state the intent). -/
theorem claim_C7 :
    next_power_of_2 1 = 1 ∧ next_power_of_2 4294967297 = 8589934591 :=
  ⟨rfl, rfl⟩

/-- Claim C8: with SHA-256 as the digest and the four single-byte blocks
0..3 as input, the root of the constructed tree in lowercase hexadecimal
is exactly the reference string recorded in the repository tests. -/
theorem claim_C8 :
    (construct [[0], [1], [2], [3]]).map (fun t => bytesToHex (root t)) =
      some "9675e04b4ba9dc81b06e81731e2d21caa2c95557a85dcfa3fff70c9ff0f30b2e" :=
  rfl

/-- Claim C9: the tree built from a single block has exactly one node,
and its root is the raw leaf hash of the block, not rehashed. -/
theorem claim_C9 (b : Data) :
    construct [b] = some [hash_data b] ∧ root [hash_data b] = hash_data b := by
  refine ⟨?_, rfl⟩
  have h := build_tree_single (hash_data b)
  simpa [construct] using h

/-- Claim C10: for every block sequence whose length is a power of two at
least 2 and every valid index, if `prove` on the constructed tree
returns a proof for that block then `verify_proof` accepts it against
the root. -/
theorem claim_C10 (B : List Data) (k i : Nat) (t : List Hash)
    (pf : List (HashDirection × Hash)) (hB : B.length = 2 ^ k) (_hk : 1 ≤ k)
    (_hi : i < B.length) (hct : construct B = some t)
    (hpv : prove t (B.getD i []) = some pf) :
    verify_proof (B.getD i []) pf (root t) = true := by
  obtain ⟨hlen, hodd, hinv⟩ := tree_facts B k t hB hct
  obtain ⟨j, hpos, hj, rfl⟩ := prove_some_spec t (B.getD i []) pf hpv
  obtain ⟨hjlen, hjp⟩ := position_some _ _ _ hpos
  have hjhash : t.getD j [] = hash_data (B.getD i []) := by simpa using hjp
  unfold verify_proof
  simp only [decide_eq_true_eq]
  rw [← hjhash, foldPath t (j + 1) j (by omega) (by omega) (by omega) (by intro h2; omega) hinv]
  rfl

/-- Claim C10, witness: applied to the concrete two-block sequence
`[[0], [1]]` at index 0, whose proof is accepted. -/
theorem claim_C10_witness :
    verify_proof [0] ((prove ((construct [[0], [1]]).getD []) [0]).getD [])
      (root ((construct [[0], [1]]).getD [])) = true :=
  claim_C10 [[0], [1]] 1 0 ((construct [[0], [1]]).getD [])
    ((prove ((construct [[0], [1]]).getD []) [0]).getD []) rfl (Nat.le_refl 1)
    (by norm_num) rfl rfl

end MerkleTree
